import Mathlib

/-!
Verification of the filter-decision engine of `@very-coffee/hello`
(`src/index.ts`): the DEBUG-pattern table builder (`parseDebugEnvVar`),
the enablement oracle (`isEnabled`), the minimum-severity computation
(`getMinLogLevel`), the message formatter (`formatMessage`) and the
per-(namespace, level) log function produced by `helloInnit`.

The embedding mirrors the TypeScript source.  A JavaScript object whose
values are `Set`s of strings is modelled as an ordered association list
`Table`; JS `Set` insertion order is modelled by keeping each enabled-set
as a duplicate-free `List String` in insertion order.  String operations
(`split`, `trim`, `substring`, `startsWith`) are modelled character-wise
on `String.data`.
-/

namespace Hello

/-- An object mapping namespace keys to enabled-sets, in key insertion
order, as built by `parseDebugEnvVar`. -/
abbrev Table := List (String × List String)

/-- Property read `result[k]` on the object: first entry with the key. -/
def objGet (t : Table) (k : String) : Option (List String) :=
  match t with
  | [] => none
  | (k', v) :: rest => if k' = k then some v else objGet rest k

/-- Property write `result[k] = v`: replace the value in place if the key
exists (JS keeps the original key position), otherwise append. -/
def objSet (t : Table) (k : String) (v : List String) : Table :=
  match t with
  | [] => [(k, v)]
  | (k', v') :: rest => if k' = k then (k', v) :: rest else (k', v') :: objSet rest k v

/-- The call `result[k].add(lvl)`: JS `Set.add` is a no-op when the
element is present, otherwise appends in insertion order.  All call
sites guarantee the key exists, so a missing key leaves the table
unchanged. -/
def addToSet (t : Table) (k : String) (lvl : String) : Table :=
  match objGet t k with
  | none => t
  | some s => objSet t k (if s.contains lvl then s else s ++ [lvl])

/-- JS `String.prototype.split(sep)` on the character list: splits into
segments, keeping empty segments, with `n` separators giving `n + 1`
segments. -/
def splitChar (sep : Char) : List Char → List (List Char)
  | [] => [[]]
  | c :: cs =>
    match splitChar sep cs with
    | [] => [[]]
    | seg :: rest => if c = sep then [] :: seg :: rest else (c :: seg) :: rest

/-- JS `String.prototype.trim()`: drop whitespace from both ends. -/
def trimChars (cs : List Char) : List Char :=
  ((cs.dropWhile Char.isWhitespace).reverse.dropWhile Char.isWhitespace).reverse

/-- JS `pattern.startsWith("-")`. -/
def headIsDash : List Char → Bool
  | '-' :: _ => true
  | _ => false

/-- `debug.split(",").map(p => p.trim()).filter(Boolean)` from
`parseDebugEnvVar`. -/
def patternsOf (debug : String) : List (List Char) :=
  ((splitChar ',' debug.data).map trimChars).filter (fun p => !p.isEmpty)

/-- The wildcard / declared-namespace enable logic of the inclusion
`forEach` in `parseDebugEnvVar`, after the destructuring
`const [ns, level] = pattern.split(":")`. -/
def applyInclusionCore (namespaces levels : List String) (t : Table) (ns level : String) : Table :=
  if ns = "" then t
  else if ns = "*" then
    namespaces.foldl
      (fun acc nsp =>
        if level ≠ "" then
          if level = "*" ∨ levels.contains level then addToSet acc nsp level else acc
        else objSet acc nsp ["*"])
      t
  else if namespaces.contains ns then
    if level ≠ "" then
      if level = "*" ∨ levels.contains level then addToSet t ns level else t
    else objSet t ns ["*"]
  else t

/-- The body of the inclusion `forEach` in `parseDebugEnvVar`:
`const [ns, level] = pattern.split(":")` followed by the enable logic.
A missing second segment and an empty second segment are both falsy in
JS, so both are represented as `""`. -/
def applyInclusion (namespaces levels : List String) (t : Table) (p : List Char) : Table :=
  let parts := splitChar ':' p
  applyInclusionCore namespaces levels t (String.mk (parts.headD [])) (String.mk (parts.getD 1 []))

/-- The body of the exclusion `forEach` in `parseDebugEnvVar`:
`const ns = pattern.substring(1).split(":")[0]`, then reset the
namespace's enabled-set to empty when it is declared. -/
def applyExclusion (namespaces : List String) (t : Table) (p : List Char) : Table :=
  let ns : String := String.mk ((splitChar ':' (p.drop 1)).headD [])
  if ns = "" then t
  else if namespaces.contains ns then objSet t ns []
  else t

/-- `parseDebugEnvVar(namespaces, levels)` with the value of the DEBUG
environment variable passed explicitly (`process.env.DEBUG || ""` is
read once at construction time). -/
def parseDebugEnvVar (namespaces levels : List String) (debug : String) : Table :=
  let init : Table := namespaces.foldl (fun acc ns => objSet acc ns []) []
  if debug = "*" then
    namespaces.foldl (fun acc ns => objSet acc ns ["*"]) init
  else
    let patterns := patternsOf debug
    let inclusions := patterns.filter (fun p => !headIsDash p)
    let withInclusions := inclusions.foldl (applyInclusion namespaces levels) init
    let exclusions := patterns.filter headIsDash
    exclusions.foldl (applyExclusion namespaces) withInclusions

/-- `isEnabled(enabledMap, namespace, level)` from the source. -/
def isEnabled (t : Table) (ns level : String) : Bool :=
  match objGet t ns with
  | none => false
  | some s =>
    if s.contains "*" then true
    else if s.length = 0 then false
    else s.contains level

/-- The `levelToPinoLevel` record: caller levels that coincide with a
Pino severity map to themselves; every other key is absent. -/
def levelToPinoLevel : List (String × String) :=
  [("fatal", "fatal"), ("error", "error"), ("warn", "warn"),
   ("info", "info"), ("debug", "debug"), ("trace", "trace")]

/-- `levelToPinoLevel[level] || "info"`, computed once per log function
in `helloInnit` (all stored severities are non-empty, so JS truthiness
of the lookup coincides with key presence). -/
def pinoLevelOf (level : String) : String :=
  (levelToPinoLevel.lookup level).getD "info"

/-- `validLevels` from `getMinLogLevel`: Pino severities in order of
increasing verbosity. -/
def validLevels : List String := ["fatal", "error", "warn", "info", "debug", "trace"]

/-- JS `Array.prototype.indexOf` on `validLevels`; only ever applied to
severities that are present, where it returns their position. -/
def sevIdxAux (x : String) : List String → Nat
  | [] => 6
  | y :: ys => if y = x then 0 else 1 + sevIdxAux x ys

/-- `validLevels.indexOf(x)` for present severities. -/
def sevIdx (x : String) : Nat := sevIdxAux x validLevels

/-- The inner `for (const level of enabledLevels)` loop of
`getMinLogLevel`, threading the mutable `minLevel` and `found`. -/
def scanLevels (s : List String) (minLevel : String) (found : Bool) : String × Bool :=
  match s with
  | [] => (minLevel, found)
  | level :: rest =>
    if level ≠ "*" ∧ (levelToPinoLevel.lookup level).isSome then
      let pl := (levelToPinoLevel.lookup level).getD "info"
      if sevIdx pl > sevIdx minLevel then scanLevels rest pl true
      else scanLevels rest minLevel found
    else scanLevels rest minLevel found

/-- The outer `for (const namespace of namespaces)` loop of
`getMinLogLevel`, with the early `return "trace"` on a wildcard
enabled-set and the final `found ? minLevel : "info"`. -/
def scanNamespaces (t : Table) (nss : List String) (minLevel : String) (found : Bool) : String :=
  match nss with
  | [] => if found then minLevel else "info"
  | ns :: rest =>
    let s := (objGet t ns).getD []
    if s.contains "*" then "trace"
    else
      let p := scanLevels s minLevel found
      scanNamespaces t rest p.1 p.2

/-- `getMinLogLevel` from `helloInnit`, with the value of the LOG_LEVEL
environment variable passed explicitly (`""` when unset; an unset or
empty value is falsy so the override branch is skipped). -/
def getMinLogLevel (logLevelEnv : String) (namespaces : List String) (t : Table) : String :=
  if logLevelEnv ≠ "" ∧ (levelToPinoLevel.lookup logLevelEnv).isSome then logLevelEnv
  else scanNamespaces t namespaces "info" false

/-- A JavaScript argument value, as far as `formatMessage` inspects it:
a string, an integer number, or an object (`typeof arg === "object"`). -/
inductive JSVal where
  | vstr : String → JSVal
  | vnum : Int → JSVal
  | vobj : JSVal
deriving DecidableEq

/-- `typeof arg === "object"`. -/
def isObjVal : JSVal → Bool
  | JSVal.vobj => true
  | _ => false

/-- JS `String(arg)`. -/
def jsToString : JSVal → String
  | JSVal.vstr s => s
  | JSVal.vnum n => toString n
  | JSVal.vobj => "[object Object]"

/-- Value of a leading run of decimal digits. -/
def digitsToNat (ds : List Char) : Nat :=
  ds.foldl (fun a c => a * 10 + (c.toNat - '0'.toNat)) 0

/-- JS `parseInt(str, 10)`: skip leading whitespace, optional sign,
then the leading digit run; `none` (NaN) when no digit follows. -/
def parseIntChars (cs : List Char) : Option Int :=
  let cs := cs.dropWhile Char.isWhitespace
  match cs with
  | '-' :: rest =>
    if (rest.takeWhile Char.isDigit).isEmpty then none
    else some (-(digitsToNat (rest.takeWhile Char.isDigit) : Int))
  | '+' :: rest =>
    if (rest.takeWhile Char.isDigit).isEmpty then none
    else some (digitsToNat (rest.takeWhile Char.isDigit) : Int)
  | _ =>
    if (cs.takeWhile Char.isDigit).isEmpty then none
    else some (digitsToNat (cs.takeWhile Char.isDigit) : Int)

/-- `parseInt(arg, 10).toString()` (the `%d` / `%i` cases). -/
def jsParseIntString (v : JSVal) : String :=
  match parseIntChars (jsToString v).data with
  | none => "NaN"
  | some i => toString i

/-- JS number canonical printing of a plain decimal: strip trailing
zeros of the fraction, drop the dot when the fraction is empty, and
print `-0` as `0`. -/
def printDecimal (neg : Bool) (ip : Nat) (frac : List Char) : String :=
  let frac' := (frac.reverse.dropWhile (fun c => c = '0')).reverse
  let body := if frac'.isEmpty then toString ip else toString ip ++ "." ++ String.mk frac'
  if neg ∧ ¬(ip = 0 ∧ frac'.isEmpty) then "-" ++ body else body

/-- JS `parseFloat(str)` restricted to plain decimal notation (no
exponent part, which no claim exercises): skip whitespace, optional
sign, digits with an optional fraction; NaN when no digit at all. -/
def parseFloatChars (cs : List Char) : Option (Bool × Nat × List Char) :=
  let cs := cs.dropWhile Char.isWhitespace
  let core := fun (neg : Bool) (body : List Char) =>
    let ds := body.takeWhile Char.isDigit
    let rest := body.drop ds.length
    let frac :=
      match rest with
      | '.' :: more => more.takeWhile Char.isDigit
      | _ => []
    if ds.isEmpty ∧ frac.isEmpty then none
    else some (neg, digitsToNat ds, frac)
  match cs with
  | '-' :: rest => core true rest
  | '+' :: rest => core false rest
  | _ => core false cs

/-- `parseFloat(arg).toString()` (the `%f` case). -/
def jsParseFloatString (v : JSVal) : String :=
  match parseFloatChars (jsToString v).data with
  | none => "NaN"
  | some (neg, ip, frac) => printDecimal neg ip frac

/-- The character class of the replacement regex `/%[sdifjoO]/g`. -/
def placeholderChars : List Char := ['s', 'd', 'i', 'f', 'j', 'o', 'O']

/-- The `switch (match)` of the replacement callback in
`formatMessage`, applied to the consumed argument. -/
def renderPlaceholder (c : Char) (v : JSVal) : String :=
  if c = 's' then jsToString v
  else if c = 'd' ∨ c = 'i' then jsParseIntString v
  else if c = 'f' then jsParseFloatString v
  else if isObjVal v then "[Object]" else jsToString v

/-- The `formattedMessage.replace(/%[sdifjoO]/g, ...)` scan: walk the
message left to right; at each `%` followed by a class character,
substitute the next argument when one remains (advancing `argIndex`),
otherwise keep the match verbatim; return the rewritten text together
with the arguments not consumed (`args.slice(argIndex)`). -/
def formatCore : List Char → List JSVal → String × List JSVal
  | [], args => ("", args)
  | '%' :: c2 :: rest2, args =>
    if placeholderChars.contains c2 then
      match args with
      | [] =>
        let r := formatCore rest2 []
        (String.mk ['%', c2] ++ r.1, r.2)
      | a :: as =>
        let r := formatCore rest2 as
        (renderPlaceholder c2 a ++ r.1, r.2)
    else
      let r := formatCore (c2 :: rest2) args
      ("%" ++ r.1, r.2)
  | c :: rest, args =>
    let r := formatCore rest args
    (String.singleton c ++ r.1, r.2)

/-- The `FormattedResult` record of the source. -/
structure FormattedResult where
  message : String
  unusedArgs : List JSVal
deriving DecidableEq

/-- `formatMessage(message, args)` from the source. -/
def formatMessage (message : String) (args : List JSVal) : FormattedResult :=
  let r := formatCore message.data args
  ⟨r.1, r.2⟩

/-- One emit call on the scoped Pino logger: the severity method used,
the `{ args: unusedArgs }` context object when present, and the message
string. -/
structure EmitCall where
  severity : String
  extraArgs : Option (List JSVal)
  message : String
deriving DecidableEq

/-- The log function `logFn` built by `helloInnit` for one
(namespace, level) cell, on its string-message overload: `gate` is the
scoped logger's `isLevelEnabled` predicate; the result is the emit call
forwarded to the engine, or `none` when the guard returns early. -/
def logFn (t : Table) (gate : String → Bool) (ns level : String)
    (message : String) (args : List JSVal) : Option EmitCall :=
  if !isEnabled t ns level && !gate (pinoLevelOf level) then none
  else
    let r := formatMessage message args
    if r.unusedArgs.length > 0 then some ⟨pinoLevelOf level, some r.unusedArgs, r.message⟩
    else some ⟨pinoLevelOf level, none, r.message⟩

/-- The construction-time data that determines one log function's
behaviour: the parsed table, the scoped logger's severity gate, and the
cell's namespace and level. -/
structure LogState where
  table : Table
  gate : String → Bool
  ns : String
  level : String

/-- The `get` accessor of the `enabled` property defined on each log
function. -/
def enabledProp (st : LogState) : Bool :=
  isEnabled st.table st.ns st.level || st.gate (pinoLevelOf st.level)

/-- The `set` accessor of the `enabled` property: its body is empty, so
the state after a write is the state before it. -/
def setEnabledProp (st : LogState) (_value : Bool) : LogState := st

/-- Calling the cell's log function on a string message. -/
def callLog (st : LogState) (message : String) (args : List JSVal) : Option EmitCall :=
  logFn st.table st.gate st.ns st.level message args

/-- A format token: a literal character, or a `%`-placeholder of the
regex class.  Used only to state the formatter's specification. -/
inductive FmtTok where
  | lit : Char → FmtTok
  | ph : Char → FmtTok
deriving DecidableEq

/-- Specification-side tokenizer of a format string: non-overlapping
left-to-right matches of `%[sdifjoO]`, everything else literal. -/
def tokenize : List Char → List FmtTok
  | [] => []
  | '%' :: c2 :: rest2 =>
    if placeholderChars.contains c2 then FmtTok.ph c2 :: tokenize rest2
    else FmtTok.lit '%' :: tokenize (c2 :: rest2)
  | c :: rest => FmtTok.lit c :: tokenize rest

/-- Specification-side substitution: render tokens in order, consuming
one argument per placeholder while arguments remain, keeping a
placeholder verbatim once they are exhausted; also return the
arguments left over. -/
def substTokens : List FmtTok → List JSVal → String × List JSVal
  | [], args => ("", args)
  | FmtTok.lit ch :: ts, args =>
    let r := substTokens ts args
    (String.singleton ch ++ r.1, r.2)
  | FmtTok.ph c :: ts, [] =>
    let r := substTokens ts []
    (String.mk ['%', c] ++ r.1, r.2)
  | FmtTok.ph c :: ts, a :: as =>
    let r := substTokens ts as
    (renderPlaceholder c a ++ r.1, r.2)

/-- Whether a token is a placeholder. -/
def isPh : FmtTok → Bool
  | FmtTok.ph _ => true
  | FmtTok.lit _ => false

/-- Modelled from the spec: the minimum-severity rule exactly as claim
C5 words it — `"trace"` on any wildcard marker, otherwise the most
verbose severity among all enabled levels across all namespaces (each
mapped through `levelToPinoLevel`, unmapped tokens defaulting to
`"info"`), and `"info"` when nothing is enabled anywhere. -/
def claimedMinSeverity (namespaces : List String) (t : Table) : String :=
  if namespaces.any (fun ns => ((objGet t ns).getD []).contains "*") then "trace"
  else
    let idxs := namespaces.flatMap (fun ns =>
      ((objGet t ns).getD []).map (fun lvl =>
        ((levelToPinoLevel.lookup lvl).map sevIdx).getD (sevIdx "info")))
    match idxs with
    | [] => "info"
    | _ => validLevels.getD (idxs.foldl max 0) "info"

/-- The verbosity indices of the mapped levels of one enabled-set, in
order: wildcard markers and unmapped tokens contribute nothing. -/
def mappedIdxs (s : List String) : List Nat :=
  s.filterMap (fun lvl =>
    if lvl = "*" then none else (levelToPinoLevel.lookup lvl).map sevIdx)

/-- Modelled from the spec, amended per the code: `"trace"` on any
wildcard marker; otherwise the most verbose severity among the default
`"info"` and the mapped severities of the enabled mapped levels
(unmapped tokens contribute nothing); `"info"` when nothing is
enabled. -/
def specMinSeverity (namespaces : List String) (t : Table) : String :=
  if namespaces.any (fun ns => ((objGet t ns).getD []).contains "*") then "trace"
  else
    let idxs := namespaces.flatMap (fun ns => mappedIdxs ((objGet t ns).getD []))
    validLevels.getD (idxs.foldl max (sevIdx "info")) "info"

theorem objGet_objSet_self (t : Table) (k : String) (v : List String) :
    objGet (objSet t k v) k = some v := by
  induction t with
  | nil => simp [objGet, objSet]
  | cons hd tl ih =>
    obtain ⟨k', v'⟩ := hd
    by_cases h : k' = k
    · simp [objGet, objSet, h]
    · simp [objGet, objSet, h, ih]

theorem objGet_objSet_ne (t : Table) (k k' : String) (v : List String) (h : k' ≠ k) :
    objGet (objSet t k v) k' = objGet t k' := by
  induction t with
  | nil => simp [objGet, objSet, if_neg (Ne.symm h)]
  | cons hd tl ih =>
    obtain ⟨k0, v0⟩ := hd
    by_cases h0 : k0 = k
    · subst h0
      simp [objGet, objSet, if_neg (Ne.symm h)]
    · simp only [objSet, if_neg h0]
      by_cases h1 : k0 = k'
      · simp [objGet, h1]
      · simp [objGet, h1, ih]

theorem objGet_addToSet_ne (t : Table) (k k' : String) (lvl : String) (h : k' ≠ k) :
    objGet (addToSet t k lvl) k' = objGet t k' := by
  unfold addToSet
  cases objGet t k with
  | none => rfl
  | some s => exact objGet_objSet_ne _ _ _ _ h

theorem splitChar_of_not_mem (sep : Char) (cs : List Char) (h : sep ∉ cs) :
    splitChar sep cs = [cs] := by
  induction cs with
  | nil => rfl
  | cons c cs ih =>
    have hc : c ≠ sep := fun hh => h (hh ▸ List.mem_cons_self c cs)
    have hcs : sep ∉ cs := fun hh => h (List.mem_cons_of_mem c hh)
    simp [splitChar, ih hcs, hc]

theorem objGet_foldl_objSet_const (v : List String) (l : List String) :
    ∀ (acc : Table) (ns : String), ns ∈ l ∨ objGet acc ns = some v →
      objGet (l.foldl (fun a n => objSet a n v) acc) ns = some v := by
  induction l with
  | nil =>
    intro acc ns h
    rcases h with h | h
    · exact absurd h (List.not_mem_nil ns)
    · exact h
  | cons n l' ih =>
    intro acc ns h
    simp only [List.foldl_cons]
    by_cases hn : n = ns
    · subst hn
      exact ih _ _ (Or.inr (objGet_objSet_self acc n v))
    · rcases h with h | h
      · rcases List.mem_cons.mp h with h' | h'
        · exact absurd h'.symm hn
        · exact ih _ _ (Or.inl h')
      · refine ih _ _ (Or.inr ?_)
        rw [objGet_objSet_ne acc n ns v (Ne.symm hn)]
        exact h

theorem objGet_foldl_addToSet (lvl : String) (l : List String) :
    ∀ (acc : Table) (ns : String),
      (ns ∈ l ∧ objGet acc ns = some []) ∨ objGet acc ns = some [lvl] →
      objGet (l.foldl (fun a n => addToSet a n lvl) acc) ns = some [lvl] := by
  induction l with
  | nil =>
    intro acc ns h
    rcases h with ⟨h, _⟩ | h
    · exact absurd h (List.not_mem_nil ns)
    · exact h
  | cons n l' ih =>
    intro acc ns h
    simp only [List.foldl_cons]
    by_cases hn : n = ns
    · subst hn
      rcases h with ⟨_, hget⟩ | hget
      · refine ih _ _ (Or.inr ?_)
        unfold addToSet
        rw [hget]
        simp [objGet_objSet_self]
      · refine ih _ _ (Or.inr ?_)
        unfold addToSet
        rw [hget]
        simp [objGet_objSet_self]
    · have hpres : objGet (addToSet acc n lvl) ns = objGet acc ns :=
        objGet_addToSet_ne acc n ns lvl (Ne.symm hn)
      rcases h with ⟨hmem, hget⟩ | hget
      · rcases List.mem_cons.mp hmem with h' | h'
        · exact absurd h'.symm hn
        · exact ih _ _ (Or.inl ⟨h', hpres.trans hget⟩)
      · exact ih _ _ (Or.inr (hpres.trans hget))

theorem applyExclusion_preserves_empty (namespaces : List String) (t : Table)
    (p : List Char) (ns : String) (h : objGet t ns = some []) :
    objGet (applyExclusion namespaces t p) ns = some [] := by
  unfold applyExclusion
  set target := String.mk ((splitChar ':' (p.drop 1)).headD []) with htarget
  by_cases h0 : target = ""
  · simp [h0, h]
  · by_cases h1 : namespaces.contains target
    · simp only [if_neg h0, if_pos h1]
      by_cases h2 : target = ns
      · subst h2
        exact objGet_objSet_self t target []
      · rw [objGet_objSet_ne t target ns [] (Ne.symm h2)]
        exact h
    · have h1' : target ∉ namespaces := fun hm => h1 (List.elem_eq_true_of_mem hm)
      simp [h0, h1', h]

theorem foldl_applyExclusion_preserves (namespaces : List String) (ns : String)
    (l : List (List Char)) :
    ∀ (t : Table), objGet t ns = some [] →
      objGet (l.foldl (applyExclusion namespaces) t) ns = some [] := by
  induction l with
  | nil => intro t h; exact h
  | cons p l' ih =>
    intro t h
    simp only [List.foldl_cons]
    exact ih _ (applyExclusion_preserves_empty namespaces t p ns h)

theorem foldl_applyExclusion_target (namespaces : List String) (ns : String)
    (hns : ns ∈ namespaces) (hne : ns ≠ "") (hcolon : ':' ∉ ns.data)
    (l : List (List Char)) :
    ∀ (t : Table), ('-' :: ns.data) ∈ l →
      objGet (l.foldl (applyExclusion namespaces) t) ns = some [] := by
  induction l with
  | nil =>
    intro t h
    exact absurd h (List.not_mem_nil _)
  | cons p l' ih =>
    intro t hmem
    simp only [List.foldl_cons]
    rcases List.mem_cons.mp hmem with heq | hmem'
    · have hstep : applyExclusion namespaces t p = objSet t ns [] := by
        rw [← heq]
        unfold applyExclusion
        simp only [List.drop_succ_cons, List.drop_zero,
          splitChar_of_not_mem ':' ns.data hcolon, List.headD_cons]
        have hmk : String.mk ns.data = ns := rfl
        rw [hmk, if_neg hne, if_pos (List.elem_eq_true_of_mem hns)]
      rw [hstep]
      exact foldl_applyExclusion_preserves namespaces ns l' _ (objGet_objSet_self t ns [])
    · exact ih _ hmem'

theorem applyInclusionCore_nil_namespaces (levels : List String) (t : Table) (ns level : String) :
    applyInclusionCore [] levels t ns level = t := by
  unfold applyInclusionCore
  split_ifs <;> simp_all

theorem applyInclusion_nil_namespaces (levels : List String) (t : Table) (p : List Char) :
    applyInclusion [] levels t p = t :=
  applyInclusionCore_nil_namespaces levels t _ _

theorem applyExclusion_nil_namespaces (t : Table) (p : List Char) :
    applyExclusion [] t p = t := by
  unfold applyExclusion
  dsimp only
  split_ifs <;> simp_all

theorem foldl_applyInclusion_nil_namespaces (levels : List String) (l : List (List Char)) :
    ∀ (t : Table), l.foldl (applyInclusion [] levels) t = t := by
  induction l with
  | nil => intro t; rfl
  | cons p l' ih =>
    intro t
    simp [List.foldl_cons, applyInclusion_nil_namespaces, ih]

theorem foldl_applyExclusion_nil_namespaces (l : List (List Char)) :
    ∀ (t : Table), l.foldl (applyExclusion []) t = t := by
  induction l with
  | nil => intro t; rfl
  | cons p l' ih =>
    intro t
    simp [List.foldl_cons, applyExclusion_nil_namespaces, ih]

theorem headD_take_two (l : List (List Char)) : (l.take 2).headD [] = l.headD [] := by
  cases l <;> rfl

theorem getD_one_take_two (l : List (List Char)) : (l.take 2).getD 1 [] = l.getD 1 [] := by
  match l with
  | [] => rfl
  | [_] => rfl
  | _ :: _ :: _ => rfl

theorem foldl_keep_acc (l : List String) : ∀ (t : Table), l.foldl (fun acc _ => acc) t = t := by
  induction l with
  | nil => intro t; rfl
  | cons n l' ih => intro t; exact ih t

theorem contains_eq_false_of_not_mem (l : List String) (a : String) (h : a ∉ l) :
    l.contains a = false :=
  Bool.eq_false_iff.mpr fun hc => h (List.mem_of_elem_eq_true hc)

theorem applyInclusionCore_star_level (namespaces levels : List String) (t : Table)
    (level : String) (hlv : level ∈ levels) (hne : level ≠ "") :
    applyInclusionCore namespaces levels t "*" level =
      namespaces.foldl (fun acc nsp => addToSet acc nsp level) t := by
  unfold applyInclusionCore
  rw [if_neg (by decide : ¬("*" : String) = ""), if_pos rfl]
  have hlam :
      (fun (acc : Table) (nsp : String) =>
        if level ≠ "" then
          if level = "*" ∨ levels.contains level = true then addToSet acc nsp level else acc
        else objSet acc nsp ["*"]) =
      fun (acc : Table) (nsp : String) => addToSet acc nsp level := by
    funext acc nsp
    rw [if_pos hne, if_pos (Or.inr (List.elem_eq_true_of_mem hlv))]
  rw [hlam]

theorem applyInclusionCore_star_unknown_level (namespaces levels : List String) (t : Table)
    (level : String) (hne : level ≠ "") (hnstar : level ≠ "*")
    (hnl : level ∉ levels) :
    applyInclusionCore namespaces levels t "*" level = t := by
  unfold applyInclusionCore
  rw [if_neg (by decide : ¬("*" : String) = ""), if_pos rfl]
  have hcf : levels.contains level = false := contains_eq_false_of_not_mem levels level hnl
  have hlam :
      (fun (acc : Table) (nsp : String) =>
        if level ≠ "" then
          if level = "*" ∨ levels.contains level = true then addToSet acc nsp level else acc
        else objSet acc nsp ["*"]) =
      fun (acc : Table) (_ : String) => acc := by
    funext acc nsp
    rw [if_pos hne, if_neg ?_]
    rintro (h | h)
    · exact hnstar h
    · rw [hcf] at h
      exact absurd h (by simp)
  rw [hlam]
  exact foldl_keep_acc namespaces t

theorem lookup_pino_mem (level pl : String) (h : levelToPinoLevel.lookup level = some pl) :
    pl ∈ validLevels := by
  simp only [levelToPinoLevel, List.lookup] at h
  repeat' split at h
  all_goals simp_all [validLevels]

theorem getD_sevIdx : ∀ m ∈ validLevels, validLevels.getD (sevIdx m) "info" = m := by
  decide

theorem mappedIdxs_cons_incl (level : String) (rest : List String) (pl : String)
    (hne : level ≠ "*") (hpl : levelToPinoLevel.lookup level = some pl) :
    mappedIdxs (level :: rest) = sevIdx pl :: mappedIdxs rest := by
  simp [mappedIdxs, List.filterMap_cons, hne, hpl]

theorem mappedIdxs_cons_skip (level : String) (rest : List String)
    (h : ¬(level ≠ "*" ∧ (levelToPinoLevel.lookup level).isSome = true)) :
    mappedIdxs (level :: rest) = mappedIdxs rest := by
  rcases not_and_or.mp h with h | h
  · have hs : level = "*" := not_not.mp h
    simp [mappedIdxs, List.filterMap_cons, hs]
  · have hn : levelToPinoLevel.lookup level = none :=
      Option.not_isSome_iff_eq_none.mp (by simpa using h)
    simp [mappedIdxs, List.filterMap_cons, hn]

theorem scanLevels_fst (s : List String) :
    ∀ (m : String) (f : Bool), m ∈ validLevels →
      (scanLevels s m f).1 ∈ validLevels ∧
        sevIdx (scanLevels s m f).1 = (mappedIdxs s).foldl max (sevIdx m) := by
  induction s with
  | nil =>
    intro m f hm
    exact ⟨hm, rfl⟩
  | cons level rest ih =>
    intro m f hm
    by_cases hc : level ≠ "*" ∧ (levelToPinoLevel.lookup level).isSome = true
    · obtain ⟨hlne, hsome⟩ := hc
      obtain ⟨pl, hpl⟩ := Option.isSome_iff_exists.mp hsome
      have hmem := lookup_pino_mem level pl hpl
      have hmap := mappedIdxs_cons_incl level rest pl hlne hpl
      simp only [scanLevels]
      rw [if_pos ⟨hlne, hsome⟩]
      rw [hpl]
      simp only [Option.getD_some]
      by_cases hgt : sevIdx pl > sevIdx m
      · rw [if_pos hgt]
        obtain ⟨ha, hb⟩ := ih pl true hmem
        refine ⟨ha, ?_⟩
        rw [hb, hmap, List.foldl_cons]
        congr 1
        exact (Nat.max_eq_right (Nat.le_of_lt hgt)).symm
      · rw [if_neg hgt]
        obtain ⟨ha, hb⟩ := ih m f hm
        refine ⟨ha, ?_⟩
        rw [hb, hmap, List.foldl_cons]
        congr 1
        exact (Nat.max_eq_left (Nat.le_of_not_lt hgt)).symm
    · simp only [scanLevels]
      rw [if_neg hc]
      obtain ⟨ha, hb⟩ := ih m f hm
      exact ⟨ha, by rw [hb, mappedIdxs_cons_skip level rest hc]⟩

theorem scanLevels_snd_false (s : List String) :
    ∀ (m : String) (f : Bool), (scanLevels s m f).2 = false →
      f = false ∧ (scanLevels s m f).1 = m := by
  induction s with
  | nil =>
    intro m f h
    exact ⟨h, rfl⟩
  | cons level rest ih =>
    intro m f h
    by_cases hc : level ≠ "*" ∧ (levelToPinoLevel.lookup level).isSome = true
    · simp only [scanLevels] at h ⊢
      rw [if_pos hc] at h ⊢
      by_cases hgt : sevIdx ((levelToPinoLevel.lookup level).getD "info") > sevIdx m
      · rw [if_pos hgt] at h ⊢
        obtain ⟨hfalse, _⟩ := ih _ _ h
        exact absurd hfalse (by simp)
      · rw [if_neg hgt] at h ⊢
        exact ih _ _ h
    · simp only [scanLevels] at h ⊢
      rw [if_neg hc] at h ⊢
      exact ih _ _ h

theorem scanNamespaces_spec (t : Table) (nss : List String) :
    ∀ (m : String) (f : Bool), m ∈ validLevels → (f = false → m = "info") →
      scanNamespaces t nss m f =
        (if nss.any (fun ns => ((objGet t ns).getD []).contains "*") then "trace"
         else validLevels.getD
           ((nss.flatMap (fun ns => mappedIdxs ((objGet t ns).getD []))).foldl max (sevIdx m))
           "info") := by
  induction nss with
  | nil =>
    intro m f hm hf
    simp only [scanNamespaces, List.any_nil, Bool.false_eq_true, if_false,
      List.flatMap_nil, List.foldl_nil]
    cases f with
    | true => exact (getD_sevIdx m hm).symm
    | false =>
      rw [hf rfl]
      rfl
  | cons ns rest ih =>
    intro m f hm hf
    simp only [scanNamespaces]
    by_cases hw : ((objGet t ns).getD []).contains "*" = true
    · rw [if_pos hw]
      have hwm : "*" ∈ (objGet t ns).getD [] := List.mem_of_elem_eq_true hw
      simp [List.any_cons, hwm]
    · have hwf : ((objGet t ns).getD []).contains "*" = false := Bool.eq_false_iff.mpr hw
      rw [if_neg hw]
      obtain ⟨h1a, h1b⟩ := scanLevels_fst ((objGet t ns).getD []) m f hm
      have hinv : (scanLevels ((objGet t ns).getD []) m f).2 = false →
          (scanLevels ((objGet t ns).getD []) m f).1 = "info" := by
        intro h2
        obtain ⟨hf0, heq⟩ := scanLevels_snd_false ((objGet t ns).getD []) m f h2
        rw [heq]
        exact hf hf0
      rw [ih _ _ h1a hinv, h1b]
      simp only [List.any_cons, hwf, Bool.false_or, List.flatMap_cons, List.foldl_append]

theorem star_error_entry (namespaces levels : List String) (ns : String)
    (herr : "error" ∈ levels) (hns : ns ∈ namespaces) :
    objGet (parseDebugEnvVar namespaces levels "*:error") ns = some ["error"] := by
  unfold parseDebugEnvVar
  dsimp only
  rw [if_neg (by decide : ¬("*:error" : String) = "*")]
  have hfil1 : (patternsOf "*:error").filter (fun p => !headIsDash p) =
      [['*', ':', 'e', 'r', 'r', 'o', 'r']] := rfl
  have hfil2 : (patternsOf "*:error").filter headIsDash = [] := rfl
  rw [hfil1, hfil2]
  simp only [List.foldl_cons, List.foldl_nil]
  have hconv : ∀ (t : Table),
      applyInclusion namespaces levels t ['*', ':', 'e', 'r', 'r', 'o', 'r'] =
        applyInclusionCore namespaces levels t "*" "error" := fun _ => rfl
  rw [hconv, applyInclusionCore_star_level namespaces levels _ "error" herr (by decide)]
  exact objGet_foldl_addToSet "error" namespaces _ ns
    (Or.inl ⟨hns, objGet_foldl_objSet_const [] namespaces [] ns (Or.inl hns)⟩)

/-- C1: for every constructed log function, a call forwards the message
to the engine's emit operation if and only if `isEnabled` holds for the
cell's (namespace, level) or the engine's own severity gate
(`isLevelEnabled` on the scoped logger, at the level's mapped severity)
allows it; a pattern-table exclusion alone never suppresses a message
the severity gate admits. -/
theorem logFn_forwards_iff (t : Table) (gate : String → Bool) (ns level message : String)
    (args : List JSVal) :
    (logFn t gate ns level message args).isSome = true ↔
      (isEnabled t ns level = true ∨ gate (pinoLevelOf level) = true) := by
  unfold logFn
  by_cases h1 : isEnabled t ns level = true <;>
    by_cases h2 : gate (pinoLevelOf level) = true <;>
      simp [h1, h2] <;> split <;> simp

/-- C6: `isEnabled` returns true iff the table has an entry for the
namespace and that entry contains the wildcard marker or the level
literally; it returns false when the namespace is absent or its
enabled-set is empty. -/
theorem isEnabled_iff (t : Table) (ns level : String) :
    (isEnabled t ns level = true ↔
      ∃ s, objGet t ns = some s ∧ ("*" ∈ s ∨ level ∈ s))
    ∧ ((objGet t ns = none ∨ objGet t ns = some []) → isEnabled t ns level = false) := by
  constructor
  · cases hg : objGet t ns with
    | none => simp [isEnabled, hg]
    | some s =>
      simp only [isEnabled, hg]
      constructor
      · intro h
        refine ⟨s, rfl, ?_⟩
        by_cases hw : s.contains "*" = true
        · exact Or.inl (List.mem_of_elem_eq_true hw)
        · rw [if_neg hw] at h
          by_cases hl : s.length = 0
          · rw [if_pos hl] at h
            exact absurd h (by simp)
          · rw [if_neg hl] at h
            exact Or.inr (List.mem_of_elem_eq_true h)
      · rintro ⟨s', hs', hor⟩
        have hss : s = s' := by injection hs'
        subst hss
        rcases hor with hw | hl
        · simp only [List.elem_eq_true_of_mem hw, if_pos]
        · by_cases hw' : s.contains "*" = true
          · simp only [hw', if_pos]
          · have hlen : ¬s.length = 0 := by
              intro h0
              rw [List.length_eq_zero] at h0
              subst h0
              exact absurd hl (List.not_mem_nil level)
            simp only [hw', if_neg, Bool.false_eq_true, if_false, hlen,
              List.elem_eq_true_of_mem hl]
  · rintro (h | h) <;> simp [isEnabled, h]

/-- C6 witness: `isEnabled` evaluated through the specification at a
concrete table. -/
theorem isEnabled_iff_witness :
    isEnabled [("app", [])] "app" "info" = false :=
  (isEnabled_iff [("app", [])] "app" "info").2 (Or.inr rfl)

/-- C9: each log function's `enabled` property is readable, and writing
any value to it is a silent no-op: reads of `enabled` and the emission
behaviour afterwards are exactly as if the write had not happened. -/
theorem enabled_setter_noop (st : LogState) (v : Bool) :
    enabledProp (setEnabledProp st v) = enabledProp st ∧
      ∀ (message : String) (args : List JSVal),
        callLog (setEnabledProp st v) message args = callLog st message args :=
  ⟨rfl, fun _ _ => rfl⟩

/-- C7: with rawSpec exactly `"*"`, the fast path maps every declared
namespace to the wildcard singleton, and `isEnabled` is true for every
declared namespace at every level. -/
theorem star_spec_enables_all (namespaces levels : List String) (ns : String)
    (h : ns ∈ namespaces) :
    objGet (parseDebugEnvVar namespaces levels "*") ns = some ["*"] ∧
      ∀ level, isEnabled (parseDebugEnvVar namespaces levels "*") ns level = true := by
  have hget : objGet (parseDebugEnvVar namespaces levels "*") ns = some ["*"] := by
    unfold parseDebugEnvVar
    dsimp only
    rw [if_pos rfl]
    exact objGet_foldl_objSet_const ["*"] namespaces _ ns (Or.inl h)
  exact ⟨hget, fun level => by simp [isEnabled, hget]⟩

/-- C7 witness: the wildcard specification at a concrete namespace set,
including a level token that is not even declared. -/
theorem star_spec_enables_all_witness :
    objGet (parseDebugEnvVar ["app", "db"] ["info"] "*") "db" = some ["*"] ∧
      isEnabled (parseDebugEnvVar ["app", "db"] ["info"] "*") "db" "custom" = true := by
  have h := star_spec_enables_all ["app", "db"] ["info"] "db" (by simp)
  exact ⟨h.1, h.2 "custom"⟩

/-- C3: a spec containing a `-namespace` exclusion token for a declared
(non-empty, colon-free) namespace leaves that namespace's enabled-set
empty whatever else the spec contains and wherever the token sits; in
particular `"app:info,-app"` and `"-app,app:info"` build structurally
equal tables. -/
theorem exclusion_wins_any_order :
    (∀ (namespaces levels : List String) (debug : String) (ns : String),
        ns ∈ namespaces → ns ≠ "" → ':' ∉ ns.data →
        ('-' :: ns.data) ∈ patternsOf debug →
        objGet (parseDebugEnvVar namespaces levels debug) ns = some []) ∧
      parseDebugEnvVar ["app"] ["info"] "app:info,-app" =
        parseDebugEnvVar ["app"] ["info"] "-app,app:info" := by
  constructor
  · intro namespaces levels debug ns hns hne hcolon hmem
    have hstar : debug ≠ "*" := by
      intro h
      subst h
      have h1 : ('-' :: ns.data) ∈ ([['*']] : List (List Char)) := hmem
      simp at h1
    unfold parseDebugEnvVar
    dsimp only
    rw [if_neg hstar]
    apply foldl_applyExclusion_target namespaces ns hns hne hcolon
    exact List.mem_filter.mpr ⟨hmem, rfl⟩
  · rfl

/-- C3 witness: the exclusion wins over the inclusion for a concrete
spec in which the exclusion comes second. -/
theorem exclusion_wins_any_order_witness :
    objGet (parseDebugEnvVar ["app"] ["info"] "app:info,-app") "app" = some [] :=
  exclusion_wins_any_order.1 ["app"] ["info"] "app:info,-app" "app"
    (by simp) (by decide) (by decide) (by decide)

/-- C2 counterexample: the pattern `"app:info:extra"` is not ignored;
the parser takes only the second `:`-segment as the level token, so it
enables `info` for `app`. -/
theorem second_segment_counterexample :
    parseDebugEnvVar ["app"] ["info"] "app:info:extra" = [("app", ["info"])] ∧
      isEnabled (parseDebugEnvVar ["app"] ["info"] "app:info:extra") "app" "info" = true :=
  ⟨rfl, rfl⟩

/-- C2 amended: the namespace token is the substring before the first
`:` and the level token is the segment between the first and second `:`
— segments after the second `:` are discarded, so an inclusion pattern
is processed exactly by its first two `:`-segments, and
`"app:info:extra"` behaves as `"app:info"`, enabling `info` for `app`
without error. -/
theorem inclusion_uses_first_two_segments :
    (∀ (namespaces levels : List String) (t : Table) (p q : List Char),
        (splitChar ':' p).take 2 = (splitChar ':' q).take 2 →
        applyInclusion namespaces levels t p = applyInclusion namespaces levels t q) ∧
      parseDebugEnvVar ["app"] ["info"] "app:info:extra" =
        parseDebugEnvVar ["app"] ["info"] "app:info" := by
  constructor
  · intro namespaces levels t p q h
    have h1 : (splitChar ':' p).headD [] = (splitChar ':' q).headD [] := by
      rw [← headD_take_two, h, headD_take_two]
    have h2 : (splitChar ':' p).getD 1 [] = (splitChar ':' q).getD 1 [] := by
      rw [← getD_one_take_two, h, getD_one_take_two]
    show applyInclusionCore namespaces levels t
        (String.mk ((splitChar ':' p).headD [])) (String.mk ((splitChar ':' p).getD 1 [])) =
      applyInclusionCore namespaces levels t
        (String.mk ((splitChar ':' q).headD [])) (String.mk ((splitChar ':' q).getD 1 []))
    rw [h1, h2]
  · rfl

/-- C2 witness: a pattern with a third segment is processed like the
pattern truncated to two segments. -/
theorem inclusion_uses_first_two_segments_witness :
    applyInclusion ["app"] ["info"] [("app", [])] "app:info:extra".data =
      applyInclusion ["app"] ["info"] [("app", [])] "app:info".data :=
  inclusion_uses_first_two_segments.1 ["app"] ["info"] [("app", [])] _ _ (by rfl)

/-- C8: for declared levels containing `"error"`, the spec `"*:error"`
enables exactly `error` for every declared namespace and no other
declared level; a `*:<level>` pattern whose (non-empty, non-wildcard)
level token is not declared enables nothing for any namespace. -/
theorem star_error_enables_exactly (namespaces levels : List String) (ns : String)
    (herr : "error" ∈ levels) (hns : ns ∈ namespaces) :
    isEnabled (parseDebugEnvVar namespaces levels "*:error") ns "error" = true ∧
      (∀ level, level ∈ levels → level ≠ "error" →
        isEnabled (parseDebugEnvVar namespaces levels "*:error") ns level = false) ∧
      (∀ (t : Table) (bogus : String), ':' ∉ bogus.data → bogus ∉ levels →
        bogus ≠ "*" → bogus ≠ "" →
        applyInclusion namespaces levels t ('*' :: ':' :: bogus.data) = t) := by
  have hget := star_error_entry namespaces levels ns herr hns
  refine ⟨?_, ?_, ?_⟩
  · simp [isEnabled, hget]
  · intro level hmem hne
    simp only [isEnabled, hget]
    rw [if_neg (by decide : ¬(["error"] : List String).contains "*" = true),
      if_neg (by decide : ¬(["error"] : List String).length = 0)]
    exact contains_eq_false_of_not_mem ["error"] level (by simp [hne])
  · intro t bogus hb hnl hnstar hnempty
    have hsplit : splitChar ':' ('*' :: ':' :: bogus.data) = [['*'], bogus.data] := by
      have h1 : splitChar ':' bogus.data = [bogus.data] :=
        splitChar_of_not_mem ':' bogus.data hb
      simp [splitChar, h1]
    show applyInclusionCore namespaces levels t
        (String.mk ((splitChar ':' ('*' :: ':' :: bogus.data)).headD []))
        (String.mk ((splitChar ':' ('*' :: ':' :: bogus.data)).getD 1 [])) = t
    rw [hsplit]
    have hstar : String.mk (List.headD [['*'], bogus.data] []) = "*" := rfl
    have hmk : String.mk (List.getD [['*'], bogus.data] 1 []) = bogus := rfl
    rw [hstar, hmk]
    exact applyInclusionCore_star_unknown_level namespaces levels t bogus hnempty hnstar hnl

/-- C8 witness: `"*:error"` at a concrete namespace and level set, and
an inert `*:bogus` pattern. -/
theorem star_error_enables_exactly_witness :
    isEnabled (parseDebugEnvVar ["app", "db"] ["error", "info"] "*:error") "db" "error" = true ∧
      isEnabled (parseDebugEnvVar ["app", "db"] ["error", "info"] "*:error") "db" "info" = false ∧
      applyInclusion ["app", "db"] ["error", "info"] [] ('*' :: ':' :: "bogus".data) = [] := by
  have h := star_error_enables_exactly ["app", "db"] ["error", "info"] "db"
    (by simp) (by simp)
  exact ⟨h.1, h.2.1 "info" (by simp) (by decide),
    h.2.2 [] "bogus" (by decide) (by decide) (by decide) (by decide)⟩

/-- C5 counterexample: with only `error` enabled, the computed minimum
severity is `"info"`, not the claimed most-verbose enabled severity
`"error"` — the default `"info"` acts as a floor that the claim
omits. -/
theorem min_severity_claim_counterexample :
    getMinLogLevel "" ["app"] (parseDebugEnvVar ["app"] ["error"] "app:error") = "info" ∧
      claimedMinSeverity ["app"] (parseDebugEnvVar ["app"] ["error"] "app:error") = "error" ∧
      ("info" : String) ≠ "error" :=
  ⟨rfl, rfl, by decide⟩

/-- C5 amended: with no explicit override, the computed minimum severity
is `"trace"` as soon as any namespace's enabled-set contains the
wildcard marker; otherwise it is the most verbose severity among the
default `"info"` and the mapped severities of the enabled levels that
`levelToPinoLevel` maps (unmapped tokens contribute nothing, which
coincides with defaulting them to `"info"`), so severities less verbose
than `"info"` never lower the threshold; it is `"info"` when nothing is
enabled anywhere. -/
theorem min_severity_matches_spec (namespaces : List String) (t : Table) :
    getMinLogLevel "" namespaces t = specMinSeverity namespaces t := by
  unfold getMinLogLevel
  rw [if_neg (by simp)]
  unfold specMinSeverity
  dsimp only
  exact scanNamespaces_spec t namespaces "info" false (by decide) (fun _ => rfl)

/-- C4 counterexample: with a non-empty namespace list and an empty
level list, the spec `"app"` still produces a non-empty table carrying
a wildcard entry, and a query returns true. -/
theorem empty_levels_counterexample :
    parseDebugEnvVar ["app"] [] "app" = [("app", ["*"])] ∧
      isEnabled (parseDebugEnvVar ["app"] [] "app") "app" "info" = true :=
  ⟨rfl, rfl⟩

/-- C4 amended: with an empty namespaces list, the table built from any
levels list and any rawSpec is empty and every `isEnabled` query is
false, and construction is total (no error); an empty levels list alone
does not make the table empty, since level-less patterns still set
wildcard entries. -/
theorem empty_namespaces_table_empty (levels : List String) (debug : String) :
    parseDebugEnvVar [] levels debug = [] ∧
      ∀ (ns level : String), isEnabled (parseDebugEnvVar [] levels debug) ns level = false := by
  have hempty : parseDebugEnvVar [] levels debug = [] := by
    unfold parseDebugEnvVar
    dsimp only
    by_cases h : debug = "*"
    · simp [h]
    · rw [if_neg h]
      rw [foldl_applyExclusion_nil_namespaces, foldl_applyInclusion_nil_namespaces]
      rfl
  exact ⟨hempty, fun ns level => by simp [isEnabled, hempty, objGet]⟩

theorem formatCore_eq_substTokens (cs : List Char) (args : List JSVal) :
    formatCore cs args = substTokens (tokenize cs) args := by
  induction cs, args using formatCore.induct with
  | case1 args => rfl
  | case2 c2 rest2 hph ih =>
    simp only [formatCore, tokenize, if_pos hph, substTokens]
    rw [ih]
  | case3 c2 rest2 hph a as ih =>
    simp only [formatCore, tokenize, if_pos hph, substTokens]
    rw [ih]
  | case4 c2 rest2 args hph ih =>
    simp only [formatCore, tokenize, if_neg hph, substTokens]
    rw [ih]
    rfl
  | case5 c rest args hc ih =>
    simp only [formatCore, tokenize, substTokens]
    rw [ih]

theorem substTokens_snd (ts : List FmtTok) :
    ∀ (args : List JSVal), (substTokens ts args).2 = args.drop (ts.countP isPh) := by
  induction ts with
  | nil =>
    intro args
    simp [substTokens]
  | cons tok ts' ih =>
    intro args
    cases tok with
    | lit ch =>
      simp [substTokens, isPh, List.countP_cons, ih]
    | ph c =>
      cases args with
      | nil =>
        simp [substTokens, ih, List.drop_nil]
      | cons a as =>
        simp [substTokens, isPh, List.countP_cons, ih, List.drop_succ_cons]

/-- C10: the formatter substitutes `%s %d %i %f %j %o %O` placeholders
left to right, consuming one argument per placeholder in order, leaves
verbatim every placeholder for which no argument remains, and returns
as `unusedArgs` exactly the suffix of the argument list after the
consumed prefix. -/
theorem formatMessage_spec (message : String) (args : List JSVal) :
    formatMessage message args =
      ⟨(substTokens (tokenize message.data) args).1,
        args.drop ((tokenize message.data).countP isPh)⟩ := by
  show (⟨(formatCore message.data args).1, (formatCore message.data args).2⟩ : FormattedResult) =
    ⟨(substTokens (tokenize message.data) args).1,
      args.drop ((tokenize message.data).countP isPh)⟩
  rw [formatCore_eq_substTokens, substTokens_snd]

end Hello
